import Mathlib

/-!
Shallow embedding of the `lsb` command-line tool (`main.go`): an S3 bucket
listing/deletion utility.  The embedding covers the presentation engine
(size formatting `byteCountIEC`, color interpolation `interpolateColor`,
the size-to-color switch in `main`), the listing filter applied to each
object, and the delete-mode aggregation loop.

Modelling conventions: Go `float64` arithmetic is modelled by exact
rational arithmetic on `ℚ`; the Go conversion `int(x)` (truncation toward
zero) is `truncRat`.  Go `int64`/`int` values are modelled by `Int` (with
explicit range hypotheses where a claim needs the 64-bit bound), Go
strings by `List Char` where substring structure matters and by `String`
for rendered output.  The fallible string indexing `"KMGTPE"[exp]` is
modelled with `List.getElem?`, so `byteCountIEC` returns `Option String`
(`none` would correspond to a Go panic).
-/

/-- The `Color` struct of `main.go` (lines 39-41): three `int` channels. -/
structure Color where
  R : Int
  G : Int
  B : Int
deriving DecidableEq, Repr

/-- Go's `int(x)` conversion applied to a `float64`, on the rational model:
truncation toward zero. -/
def truncRat (q : ℚ) : Int :=
  Int.tdiv q.num q.den

/-- `interpolateColor` (`main.go` lines 163-169): channel-wise linear
interpolation `c1*(1-factor) + c2*factor`, each channel truncated to int. -/
def interpolateColor (factor : ℚ) (c1 c2 : Color) : Color :=
  { R := truncRat ((c1.R : ℚ) * (1 - factor) + (c2.R : ℚ) * factor)
    G := truncRat ((c1.G : ℚ) * (1 - factor) + (c2.G : ℚ) * factor)
    B := truncRat ((c1.B : ℚ) * (1 - factor) + (c2.B : ℚ) * factor) }

/-- `minObjectSizeLimit` (`main.go` line 22): 1 MiB. -/
def minObjectSizeLimit : Int := 1024 * 1024

/-- `maxObjectSizeLimit` (`main.go` line 24): 400 MiB. -/
def maxObjectSizeLimit : Int := 400 * 1024 * 1024

/-- The `white` color stop (`main.go` line 93). -/
def white : Color := ⟨255, 255, 255⟩

/-- The `darkRed` color stop (`main.go` line 94). -/
def darkRed : Color := ⟨220, 0, 0⟩

/-- The `switch` in `main` (`main.go` lines 141-149) choosing the terminal
color for an object of the given size.  Note the source colors the
`size >= maxObjectSizeLimit` branch white, like the small-size branch. -/
def colorForSize (size : Int) : Color :=
  if size ≤ minObjectSizeLimit then white
  else if maxObjectSizeLimit ≤ size then white
  else interpolateColor ((size : ℚ) / (maxObjectSizeLimit : ℚ)) white darkRed

/-- The listing filter in `main` (`main.go` lines 129-134): an object is
kept iff its key contains the filter string (`strings.Contains`) and it is
not skipped by the size-range test, where a bound equal to `0` is unset.
The two `if ... continue` statements are the two `false` branches. -/
def recordPasses (filterStr key : List Char) (minSize maxSize size : Int) : Bool :=
  if ¬ (filterStr <:+: key) then false
  else if (minSize ≠ 0 ∧ size < minSize) ∨ (maxSize ≠ 0 ∧ size > maxSize) then false
  else true

/-- Flag resolution for `--minsize`/`--maxsize` (`main.go` lines 64-70):
the global starts at `0` and is overwritten with the parsed byte count
only when the flag string is non-empty. -/
def resolvedBound (provided : Bool) (parsedBytes : Int) : Int :=
  if provided then parsedBytes else 0

/-- `recordPasses` in propositional form (shared helper). -/
theorem recordPasses_true_iff (filterStr key : List Char) (minSize maxSize size : Int) :
    recordPasses filterStr key minSize maxSize size = true ↔
      (filterStr <:+: key ∧ (minSize = 0 ∨ minSize ≤ size) ∧ (maxSize = 0 ∨ size ≤ maxSize)) := by
  unfold recordPasses
  split
  · simp_all
  · split
    · next hin hsz =>
      simp only [Bool.false_eq_true, false_iff]
      rintro ⟨-, hmin, hmax⟩
      rcases hsz with ⟨h1, h2⟩ | ⟨h1, h2⟩
      · rcases hmin with rfl | hmin <;> omega
      · rcases hmax with rfl | hmax <;> omega
    · next hin hsz =>
      push_neg at hin hsz
      simp only [true_iff]
      refine ⟨hin, ?_, ?_⟩
      · by_cases h : minSize = 0
        · exact Or.inl h
        · exact Or.inr (by have := hsz.1 h; omega)
      · by_cases h : maxSize = 0
        · exact Or.inl h
        · exact Or.inr (by have := hsz.2 h; omega)

/-- Claim C2: a record passes the listing filter iff its key contains the
filter string as a substring (the empty filter matches every key), the
minimum bound is unset (`0`) or `size ≥ min`, and the maximum bound is
unset (`0`) or `size ≤ max`. -/
theorem recordPasses_iff (filterStr key : List Char) (minSize maxSize size : Int) :
    recordPasses filterStr key minSize maxSize size = true ↔
      (filterStr <:+: key ∧ (minSize = 0 ∨ minSize ≤ size) ∧ (maxSize = 0 ∨ size ≤ maxSize)) :=
  recordPasses_true_iff filterStr key minSize maxSize size

/-- Claim C6: with both bounds present (non-zero) and `min > max`, no
record of any size passes the listing filter. -/
theorem recordPasses_crossed_bounds (filterStr key : List Char) (minSize maxSize size : Int)
    (hmin : minSize ≠ 0) (hmax : maxSize ≠ 0) (hlt : maxSize < minSize) :
    recordPasses filterStr key minSize maxSize size = false := by
  rcases h : recordPasses filterStr key minSize maxSize size with _ | _
  · rfl
  · exfalso
    rcases (recordPasses_true_iff filterStr key minSize maxSize size).mp h with ⟨-, h1, h2⟩
    rcases h1 with rfl | h1
    · exact hmin rfl
    · rcases h2 with rfl | h2
      · exact hmax rfl
      · omega

/-- Witness for C6 at a concrete crossed range `{min := 10, max := 5}`. -/
theorem recordPasses_crossed_bounds_witness :
    (10 : Int) ≠ 0 ∧ (5 : Int) ≠ 0 ∧ (5 : Int) < 10 ∧
      recordPasses [] ['a'] 10 5 7 = false :=
  ⟨by decide, by decide, by decide,
    recordPasses_crossed_bounds [] ['a'] 10 5 7 (by decide) (by decide) (by decide)⟩

/-- Claim C10: a size bound flag that parses to `0` bytes is
indistinguishable from an unset bound: the filter behaves identically, and
with both bounds at a provided `0` every size passes the size checks, the
key substring test alone deciding membership. -/
theorem resolvedBound_zero_unset (filterStr key : List Char) (minSize size : Int) :
    recordPasses filterStr key minSize (resolvedBound true 0) size
        = recordPasses filterStr key minSize (resolvedBound false 0) size
      ∧ (recordPasses filterStr key (resolvedBound true 0) (resolvedBound true 0) size = true
          ↔ filterStr <:+: key) := by
  constructor
  · rfl
  · rw [show resolvedBound true 0 = 0 from rfl]
    rw [recordPasses_true_iff]
    simp

/-- `truncRat` is the identity on integers (shared helper). -/
theorem truncRat_intCast (n : Int) : truncRat ((n : ℚ)) = n := by
  unfold truncRat
  rw [Rat.num_intCast, Rat.den_intCast]
  exact Int.tdiv_one n

/-- `truncRat` agrees with the floor on non-negative rationals (shared
helper): for a non-negative numerator, truncation toward zero and the
floor-style division coincide. -/
theorem truncRat_eq_floor (q : ℚ) (h : 0 ≤ q) : truncRat q = ⌊q⌋ := by
  obtain ⟨m, hm⟩ := Int.eq_ofNat_of_zero_le (Rat.num_nonneg.mpr h)
  rw [Rat.floor_def]
  unfold truncRat
  rw [hm]
  rfl

/-- An integer-bounded non-negative rational truncates into the same
bounds (shared helper). -/
theorem truncRat_bounds (lo hi : Int) (q : ℚ) (hq : 0 ≤ q)
    (hlo : (lo : ℚ) ≤ q) (hhi : q ≤ (hi : ℚ)) :
    lo ≤ truncRat q ∧ truncRat q ≤ hi := by
  rw [truncRat_eq_floor q hq]
  refine ⟨Int.le_floor.mpr hlo, ?_⟩
  have h2 : ⌊q⌋ ≤ ⌊(hi : ℚ)⌋ := Int.floor_le_floor hhi
  simpa using h2

/-- Claim C1 (counterexample): at `size = maxObjectSizeLimit = 419430400`
the code colors the line white, not darkRed as the claim's recommended
policy states. -/
theorem colorForSize_at_maxLimit_white :
    colorForSize 419430400 = white ∧ white ≠ darkRed := by
  constructor
  · unfold colorForSize minObjectSizeLimit maxObjectSizeLimit
    norm_num
  · decide

/-- Claim C1 (amended): the color policy of `main` with the fixed
thresholds 1,048,576 and 419,430,400 bytes: at or below the minimum
threshold the color is white; at or above the maximum threshold the color
is again white (the source's actual branch, where the claim said
darkRed); strictly between, it is the interpolation at
`size / maxThreshold`. -/
theorem colorForSize_policy (size : Int) :
    minObjectSizeLimit = 1048576 ∧ maxObjectSizeLimit = 419430400 ∧
    (size ≤ 1048576 → colorForSize size = white) ∧
    (419430400 ≤ size → colorForSize size = white) ∧
    (1048576 < size → size < 419430400 →
      colorForSize size = interpolateColor ((size : ℚ) / (419430400 : ℚ)) white darkRed) := by
  refine ⟨by norm_num [minObjectSizeLimit], by norm_num [maxObjectSizeLimit], ?_, ?_, ?_⟩
  · intro h
    unfold colorForSize
    rw [if_pos (show size ≤ minObjectSizeLimit by unfold minObjectSizeLimit; omega)]
  · intro h
    unfold colorForSize
    by_cases h2 : size ≤ minObjectSizeLimit
    · rw [if_pos h2]
    · rw [if_neg h2, if_pos (show maxObjectSizeLimit ≤ size by unfold maxObjectSizeLimit; omega)]
  · intro hlo hhi
    unfold colorForSize
    rw [if_neg (show ¬ size ≤ minObjectSizeLimit by unfold minObjectSizeLimit; omega),
      if_neg (show ¬ maxObjectSizeLimit ≤ size by unfold maxObjectSizeLimit; omega)]
    norm_num [maxObjectSizeLimit]

/-- Witness for C1's amended policy at `size = 0` (small-size branch). -/
theorem colorForSize_policy_witness :
    (0 : Int) ≤ 1048576 ∧ colorForSize 0 = white :=
  ⟨by norm_num, (colorForSize_policy 0).2.2.1 (by norm_num)⟩

/-- Claim C5: for every factor in `[0,1]`, every channel of the
white-to-darkRed interpolation lies between the two stops' corresponding
channels inclusive (R between 220 and 255, G and B between 0 and 255). -/
theorem interpolateColor_gradient_bounded (factor : ℚ) (h0 : 0 ≤ factor) (h1 : factor ≤ 1) :
    (220 ≤ (interpolateColor factor white darkRed).R
        ∧ (interpolateColor factor white darkRed).R ≤ 255)
      ∧ (0 ≤ (interpolateColor factor white darkRed).G
        ∧ (interpolateColor factor white darkRed).G ≤ 255)
      ∧ (0 ≤ (interpolateColor factor white darkRed).B
        ∧ (interpolateColor factor white darkRed).B ≤ 255) := by
  unfold interpolateColor white darkRed
  simp only
  refine ⟨truncRat_bounds 220 255 _ ?_ ?_ ?_, truncRat_bounds 0 255 _ ?_ ?_ ?_,
    truncRat_bounds 0 255 _ ?_ ?_ ?_⟩ <;> push_cast <;> nlinarith

/-- Witness for C5 at `factor = 1/2`. -/
theorem interpolateColor_gradient_bounded_witness :
    (0 : ℚ) ≤ 1 / 2 ∧ (1 / 2 : ℚ) ≤ 1 ∧
      ((220 ≤ (interpolateColor (1 / 2) white darkRed).R
          ∧ (interpolateColor (1 / 2) white darkRed).R ≤ 255)
        ∧ (0 ≤ (interpolateColor (1 / 2) white darkRed).G
          ∧ (interpolateColor (1 / 2) white darkRed).G ≤ 255)
        ∧ (0 ≤ (interpolateColor (1 / 2) white darkRed).B
          ∧ (interpolateColor (1 / 2) white darkRed).B ≤ 255)) :=
  ⟨by norm_num, by norm_num,
    interpolateColor_gradient_bounded (1 / 2) (by norm_num) (by norm_num)⟩

/-- Claim C4: interpolation endpoints reproduce the stops exactly. -/
theorem interpolateColor_endpoints (A B : Color) :
    interpolateColor 0 A B = A ∧ interpolateColor 1 A B = B := by
  constructor
  · unfold interpolateColor
    rw [show ((A.R : ℚ) * (1 - 0) + (B.R : ℚ) * 0) = ((A.R : ℚ)) by ring]
    rw [show ((A.G : ℚ) * (1 - 0) + (B.G : ℚ) * 0) = ((A.G : ℚ)) by ring]
    rw [show ((A.B : ℚ) * (1 - 0) + (B.B : ℚ) * 0) = ((A.B : ℚ)) by ring]
    rw [truncRat_intCast, truncRat_intCast, truncRat_intCast]
  · unfold interpolateColor
    rw [show ((A.R : ℚ) * (1 - 1) + (B.R : ℚ) * 1) = ((B.R : ℚ)) by ring]
    rw [show ((A.G : ℚ) * (1 - 1) + (B.G : ℚ) * 1) = ((B.G : ℚ)) by ring]
    rw [show ((A.B : ℚ) * (1 - 1) + (B.B : ℚ) * 1) = ((B.B : ℚ)) by ring]
    rw [truncRat_intCast, truncRat_intCast, truncRat_intCast]

/-- The unit letters of the format string `"KMGTPE"` indexed by the loop
exponent (`main.go` line 181). -/
def unitChars : List Char := ['K', 'M', 'G', 'T', 'P', 'E']

/-- The division loop of `byteCountIEC` (`main.go` lines 176-180): starting
from `n = b / 1024`, `d = 1024`, `e = 0`, divide `n` by 1024 (bumping `d`
and `e`) until `n < 1024`.  The extra first argument is fuel for
structural termination; `byteCountIEC` passes the loop's starting value,
which `iecLoop_exact` proves is always sufficient. -/
def iecLoop : Nat → Nat → Nat → Nat → Nat × Nat
  | 0, _, d, e => (d, e)
  | fuel + 1, n, d, e =>
    if 1024 ≤ n then iecLoop fuel (n / 1024) (d * 1024) (e + 1) else (d, e)

/-- The tenths digit of `b / d` rounded to nearest, ties to even, in exact
integer arithmetic: the model of Go `fmt`'s `"%.1f"` rounding of
`float64(b) / float64(d)` (`main.go` line 181). -/
def roundTenths (b d : Nat) : Nat :=
  if 2 * (10 * b % d) < d then 10 * b / d
  else if d < 2 * (10 * b % d) then 10 * b / d + 1
  else if (10 * b / d) % 2 = 0 then 10 * b / d else 10 * b / d + 1

/-- Renders `b / d` with one decimal place, the `"%.1f"` field of
`main.go` line 181 on the exact-arithmetic model. -/
def fmtOneDec (b d : Nat) : String :=
  toString (roundTenths b d / 10) ++ "." ++ toString (roundTenths b d % 10)

/-- `byteCountIEC` (`main.go` lines 171-182).  Inputs below 1024 render as
`"<n> B>"`-style byte counts directly; larger inputs run the division
loop and render one decimal plus the unit letter.  The fallible string
indexing `"KMGTPE"[exp]` is modelled by `List.getElem?`, so the result is
an `Option` (`none` would be a Go panic). -/
def byteCountIEC (b : Int) : Option String :=
  if b < 1024 then some (toString b ++ " B")
  else
    (unitChars[(iecLoop (b.toNat / 1024) (b.toNat / 1024) 1024 0).2]?).map fun c =>
      fmtOneDec b.toNat (iecLoop (b.toNat / 1024) (b.toNat / 1024) 1024 0).1
        ++ " " ++ String.mk [c] ++ "B"

/-- Exact characterization of the division loop: when
`1024 ^ k ≤ n < 1024 ^ (k+1)` and at least `k` fuel is available, the loop
multiplies the divisor by `1024 ^ k` and adds `k` to the exponent. -/
theorem iecLoop_exact : ∀ (k fuel n d e : Nat), k ≤ fuel →
    1024 ^ k ≤ n → n < 1024 ^ (k + 1) →
    iecLoop fuel n d e = (d * 1024 ^ k, e + k) := by
  intro k
  induction k with
  | zero =>
    intro fuel n d e _ _ h2
    rw [pow_one] at h2
    match fuel with
    | 0 => simp [iecLoop]
    | fuel + 1 =>
      simp only [iecLoop]
      rw [if_neg (by omega)]
      simp
  | succ k ih =>
    intro fuel n d e hk h1 h2
    match fuel with
    | 0 => omega
    | fuel + 1 =>
      have hn : 1024 ≤ n := by
        refine le_trans ?_ h1
        calc (1024 : Nat) = 1024 ^ 1 := (pow_one _).symm
          _ ≤ 1024 ^ (k + 1) := Nat.pow_le_pow_right (by norm_num) (by omega)
      simp only [iecLoop]
      rw [if_pos hn]
      rw [ih fuel (n / 1024) (d * 1024) (e + 1) (by omega)
        (by
          rw [Nat.le_div_iff_mul_le (by norm_num)]
          calc 1024 ^ k * 1024 = 1024 ^ (k + 1) := (pow_succ 1024 k).symm
            _ ≤ n := h1)
        (by
          rw [Nat.div_lt_iff_lt_mul (by norm_num)]
          calc n < 1024 ^ (k + 2) := h2
            _ = 1024 ^ (k + 1) * 1024 := pow_succ 1024 (k + 1))]
      rw [Prod.mk.injEq]
      constructor
      · ring
      · omega

/-- Upper bound on the loop's exponent: from `n < 1024 ^ (k+1)` the final
exponent is at most `e + k`, for any fuel. -/
theorem iecLoop_exp_le : ∀ (fuel k n d e : Nat), n < 1024 ^ (k + 1) →
    (iecLoop fuel n d e).2 ≤ e + k := by
  intro fuel
  induction fuel with
  | zero => intro k n d e _; simp [iecLoop]
  | succ fuel ih =>
    intro k n d e h
    simp only [iecLoop]
    split
    · next hn =>
      match k with
      | 0 => rw [pow_one] at h; omega
      | k + 1 =>
        have hdiv : n / 1024 < 1024 ^ (k + 1) := by
          rw [Nat.div_lt_iff_lt_mul (by norm_num)]
          calc n < 1024 ^ (k + 2) := h
            _ = 1024 ^ (k + 1) * 1024 := pow_succ 1024 (k + 1)
        have := ih k (n / 1024) (d * 1024) (e + 1) hdiv
        omega
    · simp

/-- Any value below `2^63` sends the loop's exponent to at most 5 (shared
helper used by C3 and C9). -/
theorem iecExp_le_five (m : Nat) (hm : m < 2 ^ 63) :
    (iecLoop (m / 1024) (m / 1024) 1024 0).2 ≤ 5 := by
  have h : m / 1024 < 1024 ^ (5 + 1) := by
    rw [Nat.div_lt_iff_lt_mul (by norm_num)]
    calc m < 2 ^ 63 := hm
      _ ≤ 1024 ^ (5 + 1) * 1024 := by norm_num
  have := iecLoop_exp_le (m / 1024) 5 (m / 1024) 1024 0 h
  omega

/-- Small-input branch of `byteCountIEC` (shared helper). -/
theorem byteCountIEC_lt (b : Nat) (h : b < 1024) :
    byteCountIEC (b : Int) = some (toString b ++ " B") := by
  unfold byteCountIEC
  rw [if_pos (by exact_mod_cast h)]
  rfl

/-- Main branch of `byteCountIEC` (shared helper): with
`1024 ^ (e+1) ≤ b < 1024 ^ (e+2)` and `b` in the `int64` range, the result
divides by `1024 ^ (e+1)` and uses unit letter `e`. -/
theorem byteCountIEC_ge (b e : Nat) (hb : b < 2 ^ 63)
    (h1 : 1024 ^ (e + 1) ≤ b) (h2 : b < 1024 ^ (e + 2)) :
    byteCountIEC (b : Int)
      = some (fmtOneDec b (1024 ^ (e + 1)) ++ " "
          ++ String.mk [unitChars.getD e ' '] ++ "B") := by
  have hb1024 : (1024 : Nat) ≤ b := by
    refine le_trans ?_ h1
    calc (1024 : Nat) = 1024 ^ 1 := (pow_one _).symm
      _ ≤ 1024 ^ (e + 1) := Nat.pow_le_pow_right (by norm_num) (by omega)
  have he5 : e ≤ 5 := by
    by_contra hcon
    push_neg at hcon
    have hp : (1024 : Nat) ^ 7 ≤ 1024 ^ (e + 1) :=
      Nat.pow_le_pow_right (by norm_num) (by omega)
    have : (1024 : Nat) ^ 7 ≤ b := le_trans hp h1
    norm_num at this
    omega
  have helen : e < unitChars.length := by
    simp only [unitChars, List.length_cons, List.length_nil]
    omega
  unfold byteCountIEC
  rw [if_neg (by push_neg; exact_mod_cast hb1024)]
  rw [Int.toNat_natCast]
  have hdiv1 : 1024 ^ e ≤ b / 1024 := by
    rw [Nat.le_div_iff_mul_le (by norm_num)]
    calc 1024 ^ e * 1024 = 1024 ^ (e + 1) := (pow_succ 1024 e).symm
      _ ≤ b := h1
  have hdiv2 : b / 1024 < 1024 ^ (e + 1) := by
    rw [Nat.div_lt_iff_lt_mul (by norm_num)]
    calc b < 1024 ^ (e + 2) := h2
      _ = 1024 ^ (e + 1) * 1024 := pow_succ 1024 (e + 1)
  have hfuel : e ≤ b / 1024 :=
    le_trans (le_of_lt (Nat.lt_pow_self (by norm_num) e)) hdiv1
  rw [iecLoop_exact e (b / 1024) (b / 1024) 1024 0 hfuel hdiv1 hdiv2]
  simp only [Nat.zero_add]
  rw [List.getElem?_eq_getElem helen, List.getD_eq_getElem unitChars ' ' helen]
  rw [show (1024 : Nat) * 1024 ^ e = 1024 ^ (e + 1) by rw [pow_succ]; ring]
  rfl

/-- Claim C3: `byteCountIEC` renders `"<n> B"` below 1024; otherwise it
renders `b / 1024^(exp+1)` with one decimal place, a space, and the unit
letter from `KMGTPE` (no `"i"` suffix) indexed by the exponent `exp`
characterized by `1024^(exp+1) ≤ b < 1024^(exp+2)`; and the four
spec examples hold. -/
theorem byteCountIEC_spec (b e : Nat) :
    (b < 1024 → byteCountIEC (b : Int) = some (toString b ++ " B"))
      ∧ (b < 2 ^ 63 → 1024 ^ (e + 1) ≤ b → b < 1024 ^ (e + 2) →
        byteCountIEC (b : Int)
          = some (fmtOneDec b (1024 ^ (e + 1)) ++ " "
              ++ String.mk [unitChars.getD e ' '] ++ "B"))
      ∧ byteCountIEC 0 = some "0 B"
      ∧ byteCountIEC 1023 = some "1023 B"
      ∧ byteCountIEC 1024 = some "1.0 KB"
      ∧ byteCountIEC 1048576 = some "1.0 MB" := by
  refine ⟨byteCountIEC_lt b, byteCountIEC_ge b e, ?_, ?_, ?_, ?_⟩ <;> decide

/-- Witness for C3 at `b = 1024`, `e = 0`. -/
theorem byteCountIEC_spec_witness :
    (1024 : Nat) < 2 ^ 63 ∧ (1024 : Nat) ^ (0 + 1) ≤ 1024 ∧ (1024 : Nat) < 1024 ^ (0 + 2)
      ∧ byteCountIEC ((1024 : Nat) : Int)
          = some (fmtOneDec 1024 (1024 ^ (0 + 1)) ++ " "
              ++ String.mk [unitChars.getD 0 ' '] ++ "B") :=
  ⟨by norm_num, by norm_num, by norm_num,
    (byteCountIEC_spec 1024 0).2.1 (by norm_num) (by norm_num) (by norm_num)⟩

/-- Claim C9 (implicit): `byteCountIEC` is total on the `int64` range: the
loop exponent never exceeds 5, so indexing `"KMGTPE"` stays in bounds and
a string is always returned (no panic). -/
theorem byteCountIEC_total (b : Int) (hb : b < 2 ^ 63) :
    (iecLoop (b.toNat / 1024) (b.toNat / 1024) 1024 0).2 ≤ 5
      ∧ (byteCountIEC b).isSome = true := by
  have hm : b.toNat < 2 ^ 63 := by omega
  refine ⟨iecExp_le_five b.toNat hm, ?_⟩
  unfold byteCountIEC
  split
  · rfl
  · have h5 := iecExp_le_five b.toNat hm
    have hlt : (iecLoop (b.toNat / 1024) (b.toNat / 1024) 1024 0).2 < unitChars.length := by
      simp only [unitChars, List.length_cons, List.length_nil]
      omega
    rw [List.getElem?_eq_getElem hlt]
    rfl

/-- Witness for C9 at `b = 2^40`. -/
theorem byteCountIEC_total_witness :
    (2 : Int) ^ 40 < 2 ^ 63
      ∧ (iecLoop (((2 : Int) ^ 40).toNat / 1024) (((2 : Int) ^ 40).toNat / 1024) 1024 0).2 ≤ 5
      ∧ (byteCountIEC ((2 : Int) ^ 40)).isSome = true :=
  ⟨by norm_num, (byteCountIEC_total ((2 : Int) ^ 40) (by norm_num)).1,
    (byteCountIEC_total ((2 : Int) ^ 40) (by norm_num)).2⟩

/-- An object record as consumed from a listing page: key and size
(`*obj.Key`, `*obj.Size` in `main.go` lines 106-108). -/
structure S3Object where
  key : List Char
  size : Int
deriving DecidableEq, Repr

/-- Delete-mode per-page batch (`main.go` lines 105-107): every object key
of the page is appended to the `objects` slice, unfiltered. -/
def pageBatch (page : List S3Object) : List (List Char) :=
  page.foldl (fun acc o => acc ++ [o.key]) []

/-- Delete-mode totals accumulation over one page (`main.go` lines
106-110): `totalDeleteSize += *object.Size; totalObjectsDeleted += 1`. -/
def deleteStep (acc : Int × Nat) (page : List S3Object) : Int × Nat :=
  page.foldl (fun a o => (a.1 + o.size, a.2 + 1)) acc

/-- Delete-mode running totals over all pages (`main.go` lines 97-122),
starting from `0` bytes and `0` objects. -/
def deleteTotals (pages : List (List S3Object)) : Int × Nat :=
  pages.foldl deleteStep (0, 0)

/-- The single-line progress report printed after each page (`main.go`
line 121): clear-line escape, then count and formatted size. -/
def progressLine (count : Nat) (size : Int) : Option String :=
  (byteCountIEC size).map fun s =>
    "\x1b[2K\rDeleted " ++ toString count ++ " objects / " ++ s

/-- One delete-mode page iteration (`main.go` lines 104-122): build the
batch, issue the deletion call binding neither its result nor its error,
update the totals, print the progress line. -/
def deletePage (deleteCall : List (List Char) → Except String Unit)
    (acc : (Int × Nat) × List (Option String)) (page : List S3Object) :
    (Int × Nat) × List (Option String) :=
  let _res := deleteCall (pageBatch page)
  let t := deleteStep acc.1 page
  (t, acc.2 ++ [progressLine t.2 t.1])

/-- The delete-mode driver over the whole pagination (`main.go` lines
97-123), returning the final totals and the progress lines printed. -/
def runDeleteMode (deleteCall : List (List Char) → Except String Unit)
    (pages : List (List S3Object)) : (Int × Nat) × List (Option String) :=
  pages.foldl (deletePage deleteCall) ((0, 0), [])

/-- `deleteStep` adds the page's size sum and object count (shared
helper). -/
theorem deleteStep_eq (page : List S3Object) : ∀ acc : Int × Nat,
    deleteStep acc page = (acc.1 + (page.map S3Object.size).sum, acc.2 + page.length) := by
  induction page with
  | nil => intro acc; simp [deleteStep]
  | cons o r ih =>
    intro acc
    have hstep : deleteStep acc (o :: r) = deleteStep (acc.1 + o.size, acc.2 + 1) r := rfl
    rw [hstep, ih]
    simp only [List.map_cons, List.sum_cons, List.length_cons, Prod.mk.injEq]
    constructor
    · ring
    · omega

/-- Folding `deleteStep` over all pages adds the grand totals (shared
helper). -/
theorem deleteTotals_foldl (pages : List (List S3Object)) : ∀ acc : Int × Nat,
    pages.foldl deleteStep acc
      = (acc.1 + (pages.map fun p => (p.map S3Object.size).sum).sum,
         acc.2 + (pages.map List.length).sum) := by
  induction pages with
  | nil => intro acc; simp
  | cons p r ih =>
    intro acc
    rw [List.foldl_cons, ih, deleteStep_eq]
    simp only [List.map_cons, List.sum_cons, Prod.mk.injEq]
    constructor
    · ring
    · omega

/-- The batch fold is the list of keys (shared helper). -/
theorem pageBatch_foldl (page : List S3Object) : ∀ l : List (List Char),
    page.foldl (fun acc o => acc ++ [o.key]) l = l ++ page.map S3Object.key := by
  induction page with
  | nil => intro l; simp
  | cons o r ih =>
    intro l
    rw [List.foldl_cons, ih]
    simp

/-- Claim C7: in delete mode no filtering happens: every page's deletion
batch is exactly its full key list, and the final running totals are the
sum of all object sizes and the total object count across all pages. -/
theorem deleteTotals_spec (pages : List (List S3Object)) :
    deleteTotals pages
        = ((pages.map fun p => (p.map S3Object.size).sum).sum, (pages.map List.length).sum)
      ∧ ∀ page ∈ pages, pageBatch page = page.map S3Object.key := by
  constructor
  · unfold deleteTotals
    rw [deleteTotals_foldl]
    simp
  · intro page _
    unfold pageBatch
    rw [pageBatch_foldl]
    simp

/-- Two pages of three and two objects, the spec's delete-mode example. -/
def samplePages : List (List S3Object) :=
  [[⟨['a'], 100⟩, ⟨['b'], 200⟩, ⟨['c'], 300⟩], [⟨['d'], 400⟩, ⟨['e'], 500⟩]]

/-- Witness for C7 on two pages of 3 and 2 objects: count 5 and size the
sum of all five sizes. -/
theorem deleteTotals_spec_witness :
    deleteTotals samplePages = (1500, 5)
      ∧ [⟨['d'], 400⟩, ⟨['e'], 500⟩] ∈ samplePages
      ∧ pageBatch [⟨['d'], (400 : Int)⟩, ⟨['e'], 500⟩] = [['d'], ['e']] :=
  ⟨(deleteTotals_spec samplePages).1.trans (by decide), by decide,
    ((deleteTotals_spec samplePages).2 [⟨['d'], (400 : Int)⟩, ⟨['e'], 500⟩] (by decide)).trans
      (by decide)⟩

/-- Claim C8: the batch deletion call's result and error are discarded:
the driver's outcome is identical for any two deletion behaviors, the
totals are updated for every page whether or not deletion succeeded, and
one progress line is printed per page. -/
theorem runDeleteMode_ignores_outcome (d1 d2 : List (List Char) → Except String Unit)
    (pages : List (List S3Object)) :
    runDeleteMode d1 pages = runDeleteMode d2 pages
      ∧ (runDeleteMode d1 pages).1 = deleteTotals pages
      ∧ (runDeleteMode d1 pages).2.length = pages.length := by
  have hfst : ∀ (d : List (List Char) → Except String Unit) (ps : List (List S3Object))
      (acc : (Int × Nat) × List (Option String)),
      (ps.foldl (deletePage d) acc).1 = ps.foldl deleteStep acc.1 := by
    intro d ps
    induction ps with
    | nil => intro acc; rfl
    | cons p r ih =>
      intro acc
      rw [List.foldl_cons, List.foldl_cons, ih]
      rfl
  have hlen : ∀ (d : List (List Char) → Except String Unit) (ps : List (List S3Object))
      (acc : (Int × Nat) × List (Option String)),
      (ps.foldl (deletePage d) acc).2.length = acc.2.length + ps.length := by
    intro d ps
    induction ps with
    | nil => intro acc; simp
    | cons p r ih =>
      intro acc
      rw [List.foldl_cons, ih]
      have : (deletePage d acc p).2.length = acc.2.length + 1 := by
        unfold deletePage
        simp
      rw [this]
      simp only [List.length_cons]
      omega
  refine ⟨rfl, hfst d1 pages ((0, 0), []), ?_⟩
  rw [show (runDeleteMode d1 pages).2.length
      = (pages.foldl (deletePage d1) ((0, 0), [])).2.length from rfl]
  rw [hlen d1 pages ((0, 0), [])]
  simp
